import Mathlib

/-!
Shallow embedding of the MicrochipSRAM Arduino driver
(src/Examples/sram_read_write_test/MicrochipSRAM.h) together with a
byte-array model of a serial SRAM chip operating in sequential mode.

Conventions of the embedding:
* machine integers are `Nat` with explicit `% 2 ^ 32` where uint32
  overflow matters;
* the chip memory is a function `Nat → Nat` (byte value at each cell);
* a chip of capacity `C` in sequential mode wraps every byte access
  modulo `C` (spec glossary, "Sequential mode");
* fallible paths return `Option`: `none` marks that the C++ code would
  reach undefined behaviour (modulo by zero when the capacity field is
  still 0); the C++ functions themselves have no error return path.
-/

namespace MicrochipSRAM

/-- Modulus of `uint32_t` arithmetic. -/
def U32 : Nat := 4294967296

/-! Constants declared in MicrochipSRAM.h (lines 55-66). -/

def SRAM_WRITE_MODE_REG : Nat := 1

def SRAM_READ_MODE_REG : Nat := 5

def SRAM_BYTE_MODE : Nat := 0

def SRAM_PAGE_MODE : Nat := 128

def SRAM_SEQ_MODE : Nat := 192

def SRAM_1024 : Nat := 131072

def SRAM_512 : Nat := 65536

def SRAM_256 : Nat := 32768

def SRAM_128 : Nat := 16384

def SRAM_64 : Nat := 8192

def SRAM_WRITE_CODE : Nat := 2

def SRAM_READ_CODE : Nat := 3

/-- Chip memory: byte value stored at each cell index. -/
abbrev Mem := Nat → Nat

/-- Driver instance state: the two data members of class `MicrochipSRAM`
(`uint32_t SRAMBytes` and `uint8_t _SSPin`, header lines 105-107). -/
structure Driver where
  SRAMBytes : Nat
  SSPin : Nat
deriving DecidableEq

/-- Sequential-mode write of a list of bytes into a chip of capacity `C`
starting at cell `a`: each byte lands at its index modulo `C` (the chip
wraps from the last byte to address 0), later bytes overwriting earlier
ones on collision. -/
def writeSeq (C : Nat) : Nat → List Nat → Mem → Mem
  | _, [], m => m
  | a, b :: bs, m => writeSeq C (a + 1) bs (fun p => if p = a % C then b else m p)

/-- Sequential-mode read of `n` bytes from a chip of capacity `C`
starting at cell `a`, wrapping modulo `C`. -/
def readSeq (C : Nat) : Nat → Nat → Mem → List Nat
  | _, 0, _ => []
  | a, n + 1, m => m (a % C) :: readSeq C (a + 1) n m

/-- The address bytes transmitted on the SPI bus by `get`/`put`
(header lines 83-85 and 95-97): an extra most-significant byte
`(uint8_t)(addr>>16)` is sent first exactly when `SRAMBytes == SRAM_1024`,
then `(uint8_t)(addr>>8)` and `(uint8_t)addr`. -/
def addrFrame (C addr : Nat) : List Nat :=
  (if C = SRAM_1024 then [addr / 65536 % 256] else []) ++ [addr / 256 % 256, addr % 256]

/-- Big-endian value encoded by a list of transmitted address bytes. -/
def decodeBE (bs : List Nat) : Nat := bs.foldl (fun acc b => acc * 256 + b) 0

/-- The capacities the detection routine can report (the five chip sizes
known to the driver). -/
def supported (C : Nat) : Prop :=
  C = SRAM_64 ∨ C = SRAM_128 ∨ C = SRAM_256 ∨ C = SRAM_512 ∨ C = SRAM_1024

instance (C : Nat) : Decidable (supported C) := by
  unfold supported; infer_instance

/-- Result of one `put` call: the computed return address (the C++ method
returns `(addr+sizeof(T))%SRAMBytes`), the full byte frame clocked out on
the SPI bus, the chip memory afterwards, and the driver state afterwards. -/
structure PutRes where
  retAddr : Nat
  frame : List Nat
  mem : Mem
  drv : Driver

/-- Result of one `get` call: return address, SPI frame (command, address
bytes, then one `0x00` per byte read), the bytes read into the value, and
the driver state afterwards. -/
structure GetRes where
  retAddr : Nat
  frame : List Nat
  value : List Nat
  drv : Driver

/-- Method `put` (header lines 90-101): computes
`returnAddress = (addr+sizeof(T))%SRAMBytes`, sends `SRAM_WRITE_CODE`,
the 2- or 3-byte address, then the bytes of the value; the chip (mock
bus, sequential mode) stores them starting at the transmitted address,
wrapping modulo its capacity.  `none` marks the undefined modulo-by-zero
reached when `SRAMBytes` is still 0 — the C++ code has no guard and no
error return path. -/
def put (st : Driver) (addr : Nat) (bs : List Nat) (m : Mem) : Option PutRes :=
  if st.SRAMBytes = 0 then none else
  some { retAddr := (addr + bs.length) % U32 % st.SRAMBytes
       , frame := SRAM_WRITE_CODE :: (addrFrame st.SRAMBytes addr ++ bs)
       , mem := writeSeq st.SRAMBytes (decodeBE (addrFrame st.SRAMBytes addr)) bs m
       , drv := st }

/-- Method `get` (header lines 78-89): same return-address computation and
address frame as `put`, command byte `SRAM_READ_CODE`, one
`SPI.transfer(0x00)` per byte read; the value is filled from the chip
starting at the transmitted address, wrapping modulo the capacity.
`none` marks the undefined modulo-by-zero when `SRAMBytes` is still 0. -/
def get (st : Driver) (addr : Nat) (n : Nat) (m : Mem) : Option GetRes :=
  if st.SRAMBytes = 0 then none else
  some { retAddr := (addr + n) % U32 % st.SRAMBytes
       , frame := SRAM_READ_CODE :: (addrFrame st.SRAMBytes addr ++ List.replicate n 0)
       , value := readSeq st.SRAMBytes (decodeBE (addrFrame st.SRAMBytes addr)) n m
       , drv := st }

/-- Wrapping `uint32_t` subtraction: the loop bound
`SRAMBytes - sizeof(T)` of `fillMemory` is computed in this arithmetic. -/
def sub32 (a b : Nat) : Nat := (a + U32 - b) % U32

/-- Method `fillMemory` (header lines 102-104):
`while(addr<(SRAMBytes-sizeof(T))) addr = put(addr,value);`, with an
explicit fuel so the (possibly non-terminating) loop is a total function:
`none` means the fuel ran out (or a `put` hit the capacity-zero modulo),
`some` means the loop exited. -/
def fillAux (st : Driver) (bs : List Nat) : Nat → Nat → Mem → Option (Mem × Driver)
  | 0, _, _ => none
  | fuel + 1, addr, m =>
    if addr < sub32 st.SRAMBytes bs.length then
      match put st addr bs m with
      | none => none
      | some r => fillAux st bs fuel r.retAddr r.mem
    else some (m, st)

/-- Modelled from the spec: the body of `clearMemory` is not under `src/`
(only its declaration, header line 71).  Per the spec's Clear operation it
"repeatedly writes that single byte across every address from 0 to
`capacity - 1`, using the byte-granularity write path", i.e. one
single-byte `put` per address. -/
def clearAux (st : Driver) (b : Nat) : Nat → Nat → Mem → Option Mem
  | 0, _, m => some m
  | n + 1, a, m =>
    match put st a [b] m with
    | none => none
    | some r => clearAux st b n (a + 1) r.mem

/-- Modelled from the spec: `clearMemory` walks addresses `0 .. capacity-1`
writing the clear byte at each. -/
def clearMemory (st : Driver) (b : Nat) (m : Mem) : Option Mem :=
  clearAux st b st.SRAMBytes 0 m

/-- The candidate capacities probed in ascending order (spec §4.1 step 2). -/
def candidates : List Nat := [SRAM_64, SRAM_128, SRAM_256, SRAM_512, SRAM_1024]

/-- Modelled from the spec: the probing loop of the constructor's capacity
detection (the constructor body is not under `src/`; spec §4.1 step 2 and
header comment lines 20-25): for each candidate `c`, write a two-byte
marker at address `c - 1` ("two bytes are written to the last address"),
re-read address 0, and stop at the first candidate where address 0
changed; if no candidate produces the wraparound signal, report 0
(capacity unknown).  The bus behaviour is abstracted as `wr` (the write
transform a candidate probe applies to the observable memory), so both a
real chip (`wr := writeSeq Ct`) and a dead bus (a `wr` that never changes
anything) can be plugged in.  The marker is one more than the original
byte modulo 256, so a marker landing on address 0 always changes it. -/
def detectFrom (wr : Nat → List Nat → Mem → Mem) : List Nat → Mem → Nat × Mem
  | [], m => (0, m)
  | c :: rest, m =>
    if (wr (c - 1) [(m 0 + 1) % 256, (m 0 + 1) % 256] m) 0 = m 0 then
      detectFrom wr rest (wr (c - 1) [(m 0 + 1) % 256, (m 0 + 1) % 256] m)
    else (c, wr (c - 1) [(m 0 + 1) % 256, (m 0 + 1) % 256] m)

/-- Modelled from the spec: the capacity recorded on the driver instance
after probing the candidates in ascending order. -/
def detect (wr : Nat → List Nat → Mem → Mem) (m : Mem) : Nat :=
  (detectFrom wr candidates m).1

/-- The length of the unfillable tail `fillMemory` leaves at the top of
memory: `C mod sizeof(v)` when that is nonzero, a whole `sizeof(v)`
otherwise (the loop exits before writing the block that would end exactly
at the capacity boundary). -/
def fillRemainder (C s : Nat) : Nat := if C % s = 0 then s else C % s

/-! Concrete instances used by witnesses and counterexamples. -/

/-- A driver that detected an 8 KiB chip (23x640), chip select on pin 10. -/
def st8192 : Driver := ⟨8192, 10⟩

/-- A chip memory holding 0 everywhere. -/
def m0 : Mem := fun _ => 0

/-- A value one byte larger than the 8 KiB capacity: 8192 zero bytes
followed by a single 1. -/
def ceBs : List Nat := List.replicate 8192 0 ++ [1]

/-- The result of `put st8192 0 [] m0`, spelled out. -/
def r0 : PutRes := ⟨0, [SRAM_WRITE_CODE, 0, 0], m0, st8192⟩

/-- The result of `get st8192 0 0 m0`, spelled out. -/
def g0 : GetRes := ⟨0, [SRAM_READ_CODE, 0, 0], [], st8192⟩

/-- The chip memory after `put st8192 0 ceBs m0`: the oversized value has
wrapped, so its final byte overwrote cell 0. -/
def ceMem : Mem := writeSeq 8192 0 ceBs m0

/-! Theorems. -/

theorem writeSeq_nil (C a : Nat) (m : Mem) : writeSeq C a [] m = m := rfl

theorem writeSeq_cons (C a b : Nat) (bs : List Nat) (m : Mem) :
    writeSeq C a (b :: bs) m =
      writeSeq C (a + 1) bs (fun p => if p = a % C then b else m p) := rfl

theorem readSeq_zero (C a : Nat) (m : Mem) : readSeq C a 0 m = [] := rfl

theorem readSeq_succ (C a n : Nat) (m : Mem) :
    readSeq C a (n + 1) m = m (a % C) :: readSeq C (a + 1) n m := rfl

/-- A sequential write leaves every cell it does not target unchanged. -/
theorem writeSeq_untouched (C : Nat) :
    ∀ (bs : List Nat) (a : Nat) (m : Mem) (p : Nat),
      (∀ i, i < bs.length → (a + i) % C ≠ p) → writeSeq C a bs m p = m p := by
  intro bs
  induction bs with
  | nil => intro a m p _; rfl
  | cons b t ih =>
    intro a m p h
    rw [writeSeq_cons, ih (a + 1) _ p]
    · have h0 : (a + 0) % C ≠ p := h 0 (by simp)
      simp only [Nat.add_zero] at h0
      simp [Ne.symm h0]
    · intro i hi
      have := h (i + 1) (by simpa using Nat.succ_lt_succ hi)
      simpa [Nat.add_assoc, Nat.add_comm 1 i] using this

/-- Writing a block that fits below the capacity without wrapping stores
each byte at its own offset. -/
theorem writeSeq_hit (C : Nat) :
    ∀ (bs : List Nat) (a : Nat) (m : Mem) (i : Nat),
      a + bs.length ≤ C → i < bs.length →
      writeSeq C a bs m (a + i) = bs.getD i 0 := by
  intro bs
  induction bs with
  | nil => intro a m i _ hi; simp at hi
  | cons b t ih =>
    intro a m i hle hi
    rw [writeSeq_cons]
    cases i with
    | zero =>
      have ha : a < C := by simp only [List.length_cons] at hle; omega
      simp only [Nat.add_zero]
      rw [writeSeq_untouched C t (a + 1) _ a]
      · simp [Nat.mod_eq_of_lt ha]
      · intro j hj
        have hlt : a + 1 + j < C := by
          simp only [List.length_cons] at hle; omega
        rw [Nat.mod_eq_of_lt hlt]
        omega
    | succ j =>
      have hj : j < t.length := by simpa using Nat.lt_of_succ_lt_succ hi
      have hle' : (a + 1) + t.length ≤ C := by
        simp only [List.length_cons] at hle; omega
      have := ih (a + 1) (fun p => if p = a % C then b else m p) j hle' hj
      have harith : a + (j + 1) = (a + 1) + j := by omega
      rw [harith, this]
      simp

/-- Splitting a sequential write into two consecutive blocks. -/
theorem writeSeq_append (C : Nat) :
    ∀ (xs ys : List Nat) (a : Nat) (m : Mem),
      writeSeq C a (xs ++ ys) m = writeSeq C (a + xs.length) ys (writeSeq C a xs m) := by
  intro xs
  induction xs with
  | nil => intro ys a m; simp [writeSeq_nil]
  | cons x t ih =>
    intro ys a m
    rw [List.cons_append, writeSeq_cons, writeSeq_cons, ih]
    have : a + 1 + t.length = a + (t.length + 1) := by omega
    rw [this]
    simp

/-- Round trip: reading back exactly the bytes just written, provided the
block does not exceed the capacity (so no cell is written twice). -/
theorem readSeq_writeSeq (C : Nat) :
    ∀ (bs : List Nat) (a : Nat) (m : Mem),
      bs.length ≤ C →
      readSeq C a bs.length (writeSeq C a bs m) = bs := by
  intro bs
  induction bs with
  | nil => intro a m _; rfl
  | cons b t ih =>
    intro a m hlen
    simp only [List.length_cons]
    rw [writeSeq_cons, readSeq_succ]
    have hlen' : t.length ≤ C := by simp only [List.length_cons] at hlen; omega
    congr 1
    · rw [writeSeq_untouched]
      · simp
      · intro i hi heq
        have hmod : (1 + i) % C = 0 % C := by
          have h2 : (a + (1 + i)) % C = (a + 0) % C := by
            rw [← Nat.add_assoc]
            simpa using heq
          exact Nat.ModEq.add_left_cancel' a h2
        have hdvd : C ∣ (1 + i) := by
          rw [Nat.zero_mod] at hmod
          exact Nat.dvd_of_mod_eq_zero hmod
        have hle : C ≤ 1 + i := Nat.le_of_dvd (by omega) hdvd
        simp only [List.length_cons] at hlen
        omega
    · exact ih (a + 1) _ hlen'

theorem fillAux_zero (st : Driver) (bs : List Nat) (a : Nat) (m : Mem) :
    fillAux st bs 0 a m = none := rfl

theorem fillAux_succ (st : Driver) (bs : List Nat) (fuel a : Nat) (m : Mem) :
    fillAux st bs (fuel + 1) a m =
      if a < sub32 st.SRAMBytes bs.length then
        match put st a bs m with
        | none => none
        | some r => fillAux st bs fuel r.retAddr r.mem
      else some (m, st) := rfl

/-! Arithmetic facts about the supported capacities. -/

theorem supported_pos {C : Nat} (h : supported C) : 0 < C := by
  rcases h with h | h | h | h | h <;> subst h <;> decide

theorem supported_lt_U32 {C : Nat} (h : supported C) : C < U32 := by
  rcases h with h | h | h | h | h <;> subst h <;> decide

theorem supported_dvd_U32 {C : Nat} (h : supported C) : C ∣ U32 := by
  rcases h with h | h | h | h | h <;> subst h
  · exact ⟨524288, by norm_num [SRAM_64, U32]⟩
  · exact ⟨262144, by norm_num [SRAM_128, U32]⟩
  · exact ⟨131072, by norm_num [SRAM_256, U32]⟩
  · exact ⟨65536, by norm_num [SRAM_512, U32]⟩
  · exact ⟨32768, by norm_num [SRAM_1024, U32]⟩

theorem supported_ne_zero {C : Nat} (h : supported C) : C ≠ 0 :=
  Nat.pos_iff_ne_zero.mp (supported_pos h)

/-- The two-byte address frame encodes the low 16 bits of the address. -/
theorem decodeBE_addrFrame_two {C : Nat} (hC : C ≠ SRAM_1024) (a : Nat) :
    decodeBE (addrFrame C a) = a % 65536 := by
  simp only [addrFrame, if_neg hC, List.nil_append, decodeBE, List.foldl_cons,
    List.foldl_nil]
  omega

/-- The three-byte address frame (1 Mbit chip) encodes the low 24 bits. -/
theorem decodeBE_addrFrame_three (a : Nat) :
    decodeBE (addrFrame SRAM_1024 a) = a % 16777216 := by
  have h : addrFrame SRAM_1024 a = [a / 65536 % 256, a / 256 % 256, a % 256] := by
    simp [addrFrame]
  rw [h]
  simp only [decodeBE, List.foldl_cons, List.foldl_nil]
  omega

theorem addrFrame_length (C a : Nat) :
    (addrFrame C a).length = if C = SRAM_1024 then 3 else 2 := by
  by_cases h : C = SRAM_1024 <;> simp [addrFrame, h]

/-- For an in-range address on a supported chip the transmitted frame
encodes the address itself. -/
theorem decodeBE_addrFrame_lt {C : Nat} (hC : supported C) {a : Nat} (ha : a < C) :
    decodeBE (addrFrame C a) = a := by
  rcases hC with h | h | h | h | h <;> subst h
  · rw [decodeBE_addrFrame_two (by decide)]
    exact Nat.mod_eq_of_lt (by simp only [SRAM_64] at ha; omega)
  · rw [decodeBE_addrFrame_two (by decide)]
    exact Nat.mod_eq_of_lt (by simp only [SRAM_128] at ha; omega)
  · rw [decodeBE_addrFrame_two (by decide)]
    exact Nat.mod_eq_of_lt (by simp only [SRAM_256] at ha; omega)
  · rw [decodeBE_addrFrame_two (by decide)]
    exact Nat.mod_eq_of_lt (by simp only [SRAM_512] at ha; omega)
  · rw [decodeBE_addrFrame_three]
    exact Nat.mod_eq_of_lt (by simp only [SRAM_1024] at ha; omega)

theorem sub32_of_le {a b : Nat} (hba : b ≤ a) (ha : a < U32) :
    sub32 a b = a - b := by
  simp only [sub32, U32] at *
  omega

theorem sub32_underflow {a b : Nat} (hab : a < b) (hb : b ≤ a + U32) :
    sub32 a b = U32 - (b - a) := by
  simp only [sub32, U32] at *
  omega

theorem put_eq (st : Driver) (h : st.SRAMBytes ≠ 0) (a : Nat) (bs : List Nat) (m : Mem) :
    put st a bs m =
      some ⟨(a + bs.length) % U32 % st.SRAMBytes,
            SRAM_WRITE_CODE :: (addrFrame st.SRAMBytes a ++ bs),
            writeSeq st.SRAMBytes (decodeBE (addrFrame st.SRAMBytes a)) bs m,
            st⟩ := by
  simp [put, h]

theorem get_eq (st : Driver) (h : st.SRAMBytes ≠ 0) (a n : Nat) (m : Mem) :
    get st a n m =
      some ⟨(a + n) % U32 % st.SRAMBytes,
            SRAM_READ_CODE :: (addrFrame st.SRAMBytes a ++ List.replicate n 0),
            readSeq st.SRAMBytes (decodeBE (addrFrame st.SRAMBytes a)) n m,
            st⟩ := by
  simp [get, h]

/-- Because every supported capacity divides `2 ^ 32`, the `uint32_t`
overflow in `addr + sizeof(T)` never changes the wrapped return address. -/
theorem retAddr_mod {C : Nat} (hC : supported C) (x : Nat) :
    x % U32 % C = x % C :=
  Nat.mod_mod_of_dvd x (supported_dvd_U32 hC)

/-- C2: for every detected capacity `C > 0` (detection only ever records a
supported capacity), every address `a` and every value size, `put` and
`get` both return `(a + sizeof(v)) mod C`, and the returned address is
always below `C`, so chained calls stay in range. -/
theorem c2_return_address (st : Driver) (hC : supported st.SRAMBytes)
    (a n : Nat) (bs : List Nat) (m : Mem) :
    ∃ pr gr, put st a bs m = some pr ∧ get st a n m = some gr ∧
      pr.retAddr = (a + bs.length) % st.SRAMBytes ∧
      gr.retAddr = (a + n) % st.SRAMBytes ∧
      pr.retAddr < st.SRAMBytes ∧ gr.retAddr < st.SRAMBytes := by
  refine ⟨_, _, put_eq st (supported_ne_zero hC) a bs m,
    get_eq st (supported_ne_zero hC) a n m, ?_, ?_, ?_, ?_⟩
  · exact retAddr_mod hC _
  · exact retAddr_mod hC _
  · exact Nat.mod_lt _ (supported_pos hC)
  · exact Nat.mod_lt _ (supported_pos hC)

theorem c2_return_address_witness :
    supported st8192.SRAMBytes ∧
    (∃ pr gr, put st8192 5 [1, 2] m0 = some pr ∧ get st8192 5 3 m0 = some gr ∧
      pr.retAddr = (5 + [1, 2].length) % st8192.SRAMBytes ∧
      gr.retAddr = (5 + 3) % st8192.SRAMBytes ∧
      pr.retAddr < st8192.SRAMBytes ∧ gr.retAddr < st8192.SRAMBytes) :=
  ⟨by decide, c2_return_address st8192 (by decide) 5 3 [1, 2] m0⟩

/-- C5: when the capacity field is still 0 (before successful detection)
the code performs `(addr+sizeof(T))%SRAMBytes` with `SRAMBytes == 0` —
undefined modulo-by-zero, marked `none` in this embedding.  No distinct
error result is returned: the C++ methods have no guard and no error
return path, so the claim's required behaviour is absent from the code. -/
theorem c5_mod_zero_unguarded (p a n : Nat) (bs : List Nat) (m : Mem) :
    put ⟨0, p⟩ a bs m = none ∧ get ⟨0, p⟩ a n m = none := by
  constructor <;> simp [put, get]

/-- C7 (amended): for every `get`/`put` on a supported capacity the
transmitted address bytes encode `a` modulo `2 ^ (8·w)` (big-endian, the
extra most-significant byte sent first), where the width `w` is 3 if and
only if `C == 131072` and 2 otherwise.  The address is NOT reduced modulo
`C` before transmission (see the counterexample). -/
theorem c7_address_encoding (st : Driver) (hC : supported st.SRAMBytes)
    (a n : Nat) (bs : List Nat) (m : Mem) :
    ∃ pr gr, put st a bs m = some pr ∧ get st a n m = some gr ∧
      pr.frame = SRAM_WRITE_CODE :: (addrFrame st.SRAMBytes a ++ bs) ∧
      gr.frame = SRAM_READ_CODE :: (addrFrame st.SRAMBytes a ++ List.replicate n 0) ∧
      decodeBE (addrFrame st.SRAMBytes a) =
        a % 2 ^ (8 * (addrFrame st.SRAMBytes a).length) ∧
      ((addrFrame st.SRAMBytes a).length = 3 ↔ st.SRAMBytes = SRAM_1024) ∧
      ((addrFrame st.SRAMBytes a).length = 2 ↔ st.SRAMBytes ≠ SRAM_1024) := by
  refine ⟨_, _, put_eq st (supported_ne_zero hC) a bs m,
    get_eq st (supported_ne_zero hC) a n m, rfl, rfl, ?_, ?_, ?_⟩
  · by_cases h : st.SRAMBytes = SRAM_1024
    · rw [h, decodeBE_addrFrame_three, addrFrame_length]
      norm_num
    · rw [decodeBE_addrFrame_two h, addrFrame_length, if_neg h]
      norm_num
  · rw [addrFrame_length]
    by_cases h : st.SRAMBytes = SRAM_1024 <;> simp [h]
  · rw [addrFrame_length]
    by_cases h : st.SRAMBytes = SRAM_1024 <;> simp [h]

theorem c7_address_encoding_witness :
    supported st8192.SRAMBytes ∧
    (∃ pr gr, put st8192 5 [9] m0 = some pr ∧ get st8192 5 2 m0 = some gr ∧
      pr.frame = SRAM_WRITE_CODE :: (addrFrame st8192.SRAMBytes 5 ++ [9]) ∧
      gr.frame = SRAM_READ_CODE ::
        (addrFrame st8192.SRAMBytes 5 ++ List.replicate 2 0) ∧
      decodeBE (addrFrame st8192.SRAMBytes 5) =
        5 % 2 ^ (8 * (addrFrame st8192.SRAMBytes 5).length) ∧
      ((addrFrame st8192.SRAMBytes 5).length = 3 ↔ st8192.SRAMBytes = SRAM_1024) ∧
      ((addrFrame st8192.SRAMBytes 5).length = 2 ↔ st8192.SRAMBytes ≠ SRAM_1024)) :=
  ⟨by decide, c7_address_encoding st8192 (by decide) 5 2 [9] m0⟩

/-- C7 counterexample: on an 8 KiB chip, `put` at address 8192 transmits
the address bytes `[32, 0]` (the low 16 bits of 8192), which encode 8192
itself — not `8192 mod 8192 = 0` as the claim states. -/
theorem c7_counterexample :
    (put st8192 8192 [7] m0).map PutRes.frame =
      some [SRAM_WRITE_CODE, 32, 0, 7] ∧
    addrFrame st8192.SRAMBytes 8192 = [32, 0] ∧
    decodeBE (addrFrame st8192.SRAMBytes 8192) ≠ 8192 % st8192.SRAMBytes :=
  ⟨rfl, rfl, by decide⟩

/-- C10: `put`, `get` and `fillMemory` leave the driver state (both the
`SRAMBytes` and `_SSPin` fields) unchanged, for all inputs. -/
theorem c10_state_unchanged (st : Driver) (a n fuel : Nat) (bs : List Nat) (m : Mem) :
    (∀ pr, put st a bs m = some pr → pr.drv = st) ∧
    (∀ gr, get st a n m = some gr → gr.drv = st) ∧
    (∀ res, fillAux st bs fuel a m = some res → res.2 = st) := by
  refine ⟨?_, ?_, ?_⟩
  · intro pr h
    by_cases h0 : st.SRAMBytes = 0
    · simp [put, h0] at h
    · rw [put_eq st h0] at h
      cases h
      rfl
  · intro gr h
    by_cases h0 : st.SRAMBytes = 0
    · simp [get, h0] at h
    · rw [get_eq st h0] at h
      cases h
      rfl
  · induction fuel generalizing a m with
    | zero => intro res h; simp [fillAux_zero] at h
    | succ k ih =>
      intro res h
      rw [fillAux_succ] at h
      by_cases hlt : a < sub32 st.SRAMBytes bs.length
      · rw [if_pos hlt] at h
        cases hput : put st a bs m with
        | none => rw [hput] at h; simp at h
        | some r => rw [hput] at h; exact ih r.retAddr r.mem res h
      · rw [if_neg hlt] at h
        cases h
        rfl

/-- C3 (amended): on every supported capacity `C`, for every address
`a < C` and every value of size at most `C`, writing the value at `a` and
reading the same number of bytes back from `a` over the mock bus returns
the value bit-identically.  (The size bound is necessary: an oversized
value wraps and overwrites its own earlier bytes, see the
counterexample.) -/
theorem c3_roundtrip (st : Driver) (hC : supported st.SRAMBytes)
    (a : Nat) (ha : a < st.SRAMBytes) (bs : List Nat)
    (hlen : bs.length ≤ st.SRAMBytes) (m : Mem) :
    ∃ pr gr, put st a bs m = some pr ∧ get st a bs.length pr.mem = some gr ∧
      gr.value = bs := by
  refine ⟨_, _, put_eq st (supported_ne_zero hC) a bs m,
    get_eq st (supported_ne_zero hC) a bs.length
      (writeSeq st.SRAMBytes (decodeBE (addrFrame st.SRAMBytes a)) bs m), ?_⟩
  show readSeq st.SRAMBytes (decodeBE (addrFrame st.SRAMBytes a)) bs.length
      (writeSeq st.SRAMBytes (decodeBE (addrFrame st.SRAMBytes a)) bs m) = bs
  rw [decodeBE_addrFrame_lt hC ha]
  exact readSeq_writeSeq st.SRAMBytes bs a m hlen

theorem c3_roundtrip_witness :
    supported st8192.SRAMBytes ∧ 3 < st8192.SRAMBytes ∧
    [4, 5].length ≤ st8192.SRAMBytes ∧
    (∃ pr gr, put st8192 3 [4, 5] m0 = some pr ∧
      get st8192 3 [4, 5].length pr.mem = some gr ∧ gr.value = [4, 5]) :=
  ⟨by decide, by decide, by decide,
   c3_roundtrip st8192 (by decide) 3 (by decide) [4, 5] (by decide) m0⟩

/-- C3 counterexample: the claim as stated quantifies over every
fixed-size value.  On the supported capacity 8192, writing the
8193-byte value `ceBs` (8192 zeros then a 1) at address 0 wraps: its last
byte lands on cell 0, so reading 8193 bytes back from address 0 yields a
first byte of 1, not the 0 originally at the front of the value. -/
theorem c3_counterexample :
    (put st8192 0 ceBs m0).map PutRes.mem = some ceMem ∧
    (get st8192 0 ceBs.length ceMem).map GetRes.value ≠ some ceBs := by
  have hne : st8192.SRAMBytes ≠ 0 := by decide
  have hS : st8192.SRAMBytes = 8192 := rfl
  have hd : decodeBE (addrFrame st8192.SRAMBytes 0) = 0 := by decide
  have hn : ceBs.length = 8192 + 1 := by
    simp only [ceBs, List.length_append, List.length_replicate, List.length_cons,
      List.length_nil]
  have hM : ceMem 0 = 1 := by
    show writeSeq 8192 0 ceBs m0 0 = 1
    simp only [ceBs]
    rw [writeSeq_append]
    simp only [List.length_replicate, Nat.zero_add, writeSeq_cons, writeSeq_nil]
    norm_num
  constructor
  · rw [put_eq st8192 hne 0 ceBs m0]
    simp only [Option.map_some']
    show some (writeSeq st8192.SRAMBytes
        (decodeBE (addrFrame st8192.SRAMBytes 0)) ceBs m0) = some ceMem
    rw [hd, hS]
    rfl
  · intro h
    rw [hn, get_eq st8192 hne 0 (8192 + 1) ceMem, Option.map_some'] at h
    injection h with h1
    have h2 : readSeq st8192.SRAMBytes (decodeBE (addrFrame st8192.SRAMBytes 0))
        (8192 + 1) ceMem = ceBs := h1
    rw [hd, hS, readSeq_succ] at h2
    replace h1 := h2
    have h0 : (0 : Nat) % 8192 = 0 := by norm_num
    rw [h0] at h1
    have hceBs : ceBs = 0 :: (List.replicate 8191 0 ++ [1]) := by
      simp only [ceBs]
      rw [show (8192 : Nat) = 8191 + 1 from rfl, List.replicate_succ,
        List.cons_append]
    rw [hceBs] at h1
    injection h1 with h2 h3
    rw [hM] at h2
    exact absurd h2 (by norm_num)

/-! Capacity detection. -/

theorem succ_mod_256_ne (x : Nat) : (x + 1) % 256 ≠ x := by omega

theorem writeSeq_two (C a b1 b2 : Nat) (m : Mem) (p : Nat) :
    writeSeq C a [b1, b2] m p =
      if p = (a + 1) % C then b2 else if p = a % C then b1 else m p := rfl

theorem detectFrom_nil (wr : Nat → List Nat → Mem → Mem) (m : Mem) :
    detectFrom wr [] m = (0, m) := rfl

theorem detectFrom_cons (wr : Nat → List Nat → Mem → Mem) (c : Nat)
    (rest : List Nat) (m : Mem) :
    detectFrom wr (c :: rest) m =
      if (wr (c - 1) [(m 0 + 1) % 256, (m 0 + 1) % 256] m) 0 = m 0 then
        detectFrom wr rest (wr (c - 1) [(m 0 + 1) % 256, (m 0 + 1) % 256] m)
      else (c, wr (c - 1) [(m 0 + 1) % 256, (m 0 + 1) % 256] m) := rfl

/-- Probing a candidate strictly below the true capacity writes its two
marker bytes at cells `c-1` and `c`, neither of which is cell 0, so the
value read back from address 0 is unchanged. -/
theorem probe_pass (Ct c b1 b2 : Nat) (h2 : 2 ≤ c) (hlt : c < Ct) (m : Mem) :
    writeSeq Ct (c - 1) [b1, b2] m 0 = m 0 := by
  rw [writeSeq_two]
  have h1 : c - 1 + 1 = c := by omega
  rw [h1, Nat.mod_eq_of_lt hlt, Nat.mod_eq_of_lt (by omega : c - 1 < Ct)]
  rw [if_neg (by omega), if_neg (by omega)]

/-- Probing the true capacity wraps: the second marker byte lands on
cell `Ct mod Ct = 0`. -/
theorem probe_hit (Ct b1 b2 : Nat) (h1 : 1 ≤ Ct) (m : Mem) :
    writeSeq Ct (Ct - 1) [b1, b2] m 0 = b2 := by
  rw [writeSeq_two]
  have he : Ct - 1 + 1 = Ct := by omega
  rw [he, Nat.mod_self]
  simp

/-- Running the probe loop against a sequential chip of capacity `Ct`
stops exactly at `Ct`, provided every earlier candidate is smaller. -/
theorem detect_chip_aux (Ct : Nat) (hCt2 : 2 ≤ Ct) :
    ∀ (l1 l2 : List Nat) (m : Mem), (∀ c ∈ l1, 2 ≤ c ∧ c < Ct) →
      (detectFrom (writeSeq Ct) (l1 ++ Ct :: l2) m).1 = Ct := by
  intro l1
  induction l1 with
  | nil =>
    intro l2 m _
    rw [List.nil_append, detectFrom_cons, if_neg]
    rw [probe_hit Ct _ _ (by omega) m]
    exact succ_mod_256_ne (m 0)
  | cons c t ih =>
    intro l2 m hall
    obtain ⟨hc2, hclt⟩ := hall c (by simp)
    rw [List.cons_append, detectFrom_cons, if_pos (probe_pass Ct c _ _ hc2 hclt m)]
    exact ih l2 _ (fun x hx => hall x (by simp [hx]))

/-- A bus on which writes never change the byte observed at address 0
(e.g. an open line) makes every probe report "unchanged", so the loop
falls through every candidate. -/
theorem detectFrom_noWrap (wr : Nat → List Nat → Mem → Mem)
    (hw : ∀ a bs mm, wr a bs mm 0 = mm 0) :
    ∀ (l : List Nat) (m : Mem), (detectFrom wr l m).1 = 0 := by
  intro l
  induction l with
  | nil => intro m; rfl
  | cons c t ih =>
    intro m
    rw [detectFrom_cons, if_pos (hw _ _ _)]
    exact ih _

/-- C1: detection against a simulated sequential chip of any supported
capacity `Ct` reports exactly `Ct`, and the address width the driver then
uses (the length of the transmitted address frame) is 3 bytes if and only
if `Ct == 131072`. -/
theorem c1_detection (Ct : Nat) (hCt : Ct ∈ candidates) (m : Mem) :
    detect (writeSeq Ct) m = Ct ∧
      ((addrFrame (detect (writeSeq Ct) m) 0).length = 3 ↔ Ct = SRAM_1024) := by
  have hdet : detect (writeSeq Ct) m = Ct := by
    simp only [candidates, List.mem_cons, List.not_mem_nil, or_false] at hCt
    unfold detect
    rcases hCt with h | h | h | h | h <;> subst h
    · simpa [candidates] using
        detect_chip_aux SRAM_64 (by decide) []
          [SRAM_128, SRAM_256, SRAM_512, SRAM_1024] m (by decide)
    · simpa [candidates] using
        detect_chip_aux SRAM_128 (by decide) [SRAM_64]
          [SRAM_256, SRAM_512, SRAM_1024] m (by decide)
    · simpa [candidates] using
        detect_chip_aux SRAM_256 (by decide) [SRAM_64, SRAM_128]
          [SRAM_512, SRAM_1024] m (by decide)
    · simpa [candidates] using
        detect_chip_aux SRAM_512 (by decide) [SRAM_64, SRAM_128, SRAM_256]
          [SRAM_1024] m (by decide)
    · simpa [candidates] using
        detect_chip_aux SRAM_1024 (by decide) [SRAM_64, SRAM_128, SRAM_256, SRAM_512]
          [] m (by decide)
  refine ⟨hdet, ?_⟩
  rw [hdet, addrFrame_length]
  by_cases h : Ct = SRAM_1024 <;> simp [h]

theorem c1_detection_witness :
    SRAM_1024 ∈ candidates ∧
    (detect (writeSeq SRAM_1024) m0 = SRAM_1024 ∧
      ((addrFrame (detect (writeSeq SRAM_1024) m0) 0).length = 3 ↔
        SRAM_1024 = SRAM_1024)) :=
  ⟨by decide, c1_detection SRAM_1024 (by decide) m0⟩

/-- C6: against a simulated bus on which no write ever changes the byte
observed at address 0 (no candidate ever produces a wraparound signal,
e.g. an open line), detection leaves the capacity at 0 — never a false
supported capacity. -/
theorem c6_no_wraparound (wr : Nat → List Nat → Mem → Mem)
    (hw : ∀ a bs mm, wr a bs mm 0 = mm 0) (m : Mem) :
    detect wr m = 0 ∧ ¬ supported (detect wr m) := by
  have h : detect wr m = 0 := detectFrom_noWrap wr hw candidates m
  refine ⟨h, ?_⟩
  rw [h]
  decide

theorem c6_no_wraparound_witness :
    (∀ a bs mm, (fun (_ : Nat) (_ : List Nat) (mm : Mem) => mm) a bs mm 0 = mm 0) ∧
    (detect (fun _ _ mm => mm) m0 = 0 ∧ ¬ supported (detect (fun _ _ mm => mm) m0)) :=
  ⟨fun _ _ _ => rfl, c6_no_wraparound _ (fun _ _ _ => rfl) m0⟩

/-! Clear operation. -/

theorem clearAux_zero (st : Driver) (b a : Nat) (m : Mem) :
    clearAux st b 0 a m = some m := rfl

theorem clearAux_succ (st : Driver) (b n a : Nat) (m : Mem) :
    clearAux st b (n + 1) a m =
      match put st a [b] m with
      | none => none
      | some r => clearAux st b n (a + 1) r.mem := rfl

theorem writeSeq_one (C a b : Nat) (m : Mem) (p : Nat) :
    writeSeq C a [b] m p = if p = a % C then b else m p := rfl

/-- Walking `n` consecutive addresses from `a` (all in range) with a
single-byte `put` each sets exactly the cells `[a, a+n)` to `b`. -/
theorem clearAux_spec (st : Driver) (hC : supported st.SRAMBytes) (b : Nat) :
    ∀ (n a : Nat) (m : Mem), a + n ≤ st.SRAMBytes →
      ∃ mm, clearAux st b n a m = some mm ∧
        ∀ p, mm p = if a ≤ p ∧ p < a + n then b else m p := by
  intro n
  induction n with
  | zero =>
    intro a m _
    refine ⟨m, rfl, fun p => ?_⟩
    rw [if_neg (by omega)]
  | succ k ih =>
    intro a m hle
    have haC : a < st.SRAMBytes := by omega
    obtain ⟨mm, heq, hchar⟩ :=
      ih (a + 1) (writeSeq st.SRAMBytes a [b] m) (by omega)
    refine ⟨mm, ?_, ?_⟩
    · rw [clearAux_succ, put_eq st (supported_ne_zero hC) a [b] m]
      show clearAux st b k (a + 1)
        (writeSeq st.SRAMBytes (decodeBE (addrFrame st.SRAMBytes a)) [b] m) = some mm
      rw [decodeBE_addrFrame_lt hC haC]
      exact heq
    · intro p
      have hw1 : writeSeq st.SRAMBytes a [b] m p = if p = a then b else m p := by
        rw [writeSeq_one, Nat.mod_eq_of_lt haC]
      rw [hchar p, hw1]
      split_ifs <;> omega

/-- C8: on every detected (supported) capacity `C`, `clearMemory(b)`
writes `b` to every address `0 .. C-1`: afterwards every cell below `C`
holds `b`, and a one-byte `get` at every offset in `[0, C)` reads back
`[b]`. -/
theorem c8_clear_memory (st : Driver) (hC : supported st.SRAMBytes)
    (b : Nat) (m : Mem) :
    ∃ mm, clearMemory st b m = some mm ∧
      (∀ i, i < st.SRAMBytes → mm i = b) ∧
      (∀ i, i < st.SRAMBytes →
        ∃ gr, get st i 1 mm = some gr ∧ gr.value = [b]) := by
  obtain ⟨mm, heq, hchar⟩ :=
    clearAux_spec st hC b st.SRAMBytes 0 m (by omega)
  have hval : ∀ i, i < st.SRAMBytes → mm i = b := by
    intro i hi
    rw [hchar i, if_pos (by omega)]
  refine ⟨mm, heq, hval, ?_⟩
  intro i hi
  refine ⟨_, get_eq st (supported_ne_zero hC) i 1 mm, ?_⟩
  show readSeq st.SRAMBytes (decodeBE (addrFrame st.SRAMBytes i)) 1 mm = [b]
  rw [decodeBE_addrFrame_lt hC hi, readSeq_succ, readSeq_zero,
    Nat.mod_eq_of_lt hi, hval i hi]

theorem c8_clear_memory_witness :
    supported st8192.SRAMBytes ∧
    (∃ mm, clearMemory st8192 255 m0 = some mm ∧
      (∀ i, i < st8192.SRAMBytes → mm i = 255) ∧
      (∀ i, i < st8192.SRAMBytes →
        ∃ gr, get st8192 i 1 mm = some gr ∧ gr.value = [255])) :=
  ⟨by decide, c8_clear_memory st8192 (by decide) 255 m0⟩

/-! Fill operation. -/

theorem fillAux_exit (st : Driver) (bs : List Nat) (fuel a : Nat) (m : Mem)
    (h : ¬ a < sub32 st.SRAMBytes bs.length) :
    fillAux st bs (fuel + 1) a m = some (m, st) := by
  rw [fillAux_succ, if_neg h]

/-- One iteration of the fill loop below the bound: the block is written
at `addr` without wrapping and the loop continues at `addr + sizeof`. -/
theorem fillAux_step (st : Driver) (hC : supported st.SRAMBytes) (bs : List Nat)
    (fuel a : Nat) (m : Mem) (hsC : bs.length ≤ st.SRAMBytes)
    (hlt : a < st.SRAMBytes - bs.length) :
    fillAux st bs (fuel + 1) a m =
      fillAux st bs fuel (a + bs.length) (writeSeq st.SRAMBytes a bs m) := by
  have hsub : sub32 st.SRAMBytes bs.length = st.SRAMBytes - bs.length :=
    sub32_of_le hsC (supported_lt_U32 hC)
  rw [fillAux_succ, hsub, if_pos hlt, put_eq st (supported_ne_zero hC)]
  show fillAux st bs fuel ((a + bs.length) % U32 % st.SRAMBytes)
      (writeSeq st.SRAMBytes (decodeBE (addrFrame st.SRAMBytes a)) bs m) = _
  have haC : a < st.SRAMBytes := by omega
  have hsum : a + bs.length < st.SRAMBytes := by omega
  rw [retAddr_mod hC, Nat.mod_eq_of_lt hsum, decodeBE_addrFrame_lt hC haC]

/-- Running the fill loop for exactly its `k` remaining iterations paints
the pattern over `[a, a + k·sizeof)` and leaves the rest untouched. -/
theorem fillAux_run (st : Driver) (hC : supported st.SRAMBytes) (bs : List Nat)
    (hs1 : 1 ≤ bs.length) (hsC : bs.length ≤ st.SRAMBytes) :
    ∀ (k a : Nat) (m : Mem),
      st.SRAMBytes - bs.length ≤ a + k * bs.length →
      (∀ j, j < k → a + j * bs.length < st.SRAMBytes - bs.length) →
      ∃ mm, fillAux st bs (k + 1) a m = some (mm, st) ∧
        ∀ p, mm p = if a ≤ p ∧ p < a + k * bs.length
          then bs.getD ((p - a) % bs.length) 0 else m p := by
  intro k
  induction k with
  | zero =>
    intro a m hk1 _
    refine ⟨m, ?_, fun p => ?_⟩
    · apply fillAux_exit
      rw [sub32_of_le hsC (supported_lt_U32 hC)]
      omega
    · rw [if_neg (by omega)]
  | succ k ih =>
    intro a m hk1 hk2
    have hmul : (k + 1) * bs.length = k * bs.length + bs.length :=
      Nat.succ_mul k bs.length
    have h0 : a < st.SRAMBytes - bs.length := by
      have := hk2 0 (by omega)
      simpa using this
    rw [fillAux_step st hC bs (k + 1) a m hsC h0]
    obtain ⟨mm, heq, hchar⟩ := ih (a + bs.length) (writeSeq st.SRAMBytes a bs m)
      (by omega)
      (by
        intro j hj
        have := hk2 (j + 1) (by omega)
        have hmj : (j + 1) * bs.length = j * bs.length + bs.length :=
          Nat.succ_mul j bs.length
        omega)
    refine ⟨mm, heq, fun p => ?_⟩
    rw [hchar p]
    by_cases h1 : a + bs.length ≤ p ∧ p < a + bs.length + k * bs.length
    · rw [if_pos h1, if_pos (by omega)]
      have hsplit : p - a = (p - (a + bs.length)) + bs.length := by omega
      rw [hsplit, Nat.add_mod_right]
    · rw [if_neg h1]
      by_cases h2 : a ≤ p ∧ p < a + bs.length
      · have hw : writeSeq st.SRAMBytes a bs m p = bs.getD (p - a) 0 := by
          have hhit := writeSeq_hit st.SRAMBytes bs a m (p - a)
            (by omega) (by omega)
          rw [show a + (p - a) = p by omega] at hhit
          exact hhit
        rw [hw, if_pos (by omega), Nat.mod_eq_of_lt (by omega)]
      · have hun : writeSeq st.SRAMBytes a bs m p = m p := by
          apply writeSeq_untouched
          intro i hi
          rw [Nat.mod_eq_of_lt (by omega : a + i < st.SRAMBytes)]
          omega
        rw [hun, if_neg (by omega)]

/-- With an oversized value (`sizeof > capacity`) the `uint32` loop bound
underflows to a huge value; once the address is below it, every address
the loop produces stays below the capacity, hence below the bound: the
loop never exits. -/
theorem fillAux_no_exit (st : Driver) (hC : supported st.SRAMBytes) (bs : List Nat)
    (hgt : st.SRAMBytes < bs.length) (hU : bs.length < U32) :
    ∀ (fuel a : Nat) (m : Mem), a < sub32 st.SRAMBytes bs.length →
      fillAux st bs fuel a m = none := by
  have hCb : st.SRAMBytes < sub32 st.SRAMBytes bs.length := by
    rw [sub32_underflow hgt (by have := supported_lt_U32 hC; omega)]
    have := supported_lt_U32 hC
    omega
  intro fuel
  induction fuel with
  | zero => intro a m _; rfl
  | succ k ih =>
    intro a m hlt
    rw [fillAux_succ, if_pos hlt, put_eq st (supported_ne_zero hC)]
    show fillAux st bs k ((a + bs.length) % U32 % st.SRAMBytes)
      (writeSeq st.SRAMBytes (decodeBE (addrFrame st.SRAMBytes a)) bs m) = none
    apply ih
    have : (a + bs.length) % U32 % st.SRAMBytes < st.SRAMBytes :=
      Nat.mod_lt _ (supported_pos hC)
    omega

/-- With a value that fits (`sizeof ≤ capacity`) the loop terminates from
every starting address: the address grows by `sizeof ≥ 1` per iteration
until it reaches the bound. -/
theorem fillAux_term (st : Driver) (hC : supported st.SRAMBytes) (bs : List Nat)
    (hs1 : 1 ≤ bs.length) (hsC : bs.length ≤ st.SRAMBytes) :
    ∀ (n a : Nat) (m : Mem), st.SRAMBytes - bs.length ≤ a + n →
      ∃ res, fillAux st bs (n + 1) a m = some res := by
  intro n
  induction n with
  | zero =>
    intro a m h
    refine ⟨(m, st), fillAux_exit st bs 0 a m ?_⟩
    rw [sub32_of_le hsC (supported_lt_U32 hC)]
    omega
  | succ k ih =>
    intro a m h
    by_cases hlt : a < st.SRAMBytes - bs.length
    · rw [fillAux_step st hC bs (k + 1) a m hsC hlt]
      exact ih (a + bs.length) _ (by omega)
    · exact ⟨(m, st), fillAux_exit st bs (k + 1) a m (by
        rw [sub32_of_le hsC (supported_lt_U32 hC)]
        omega)⟩

/-- C9 (amended): on every detected (supported) capacity, `fillMemory(a, v)`
terminates if and only if `sizeof(v) ≤ C` or the starting address is
already at or above the underflowed `uint32` bound `(C - sizeof(v)) mod 2^32`
(in which case the loop exits before its first iteration).  For starting
addresses below that bound — in particular every `a < C` — an oversized
value makes the loop run forever, since every returned address stays
below `C`. -/
theorem c9_fill_termination (st : Driver) (hC : supported st.SRAMBytes)
    (bs : List Nat) (hs1 : 1 ≤ bs.length) (hU : bs.length < U32)
    (a : Nat) (m : Mem) :
    (∃ fuel res, fillAux st bs fuel a m = some res) ↔
      (bs.length ≤ st.SRAMBytes ∨ sub32 st.SRAMBytes bs.length ≤ a) := by
  constructor
  · rintro ⟨fuel, res, h⟩
    by_contra hcon
    push_neg at hcon
    obtain ⟨hgt, hlt⟩ := hcon
    rw [fillAux_no_exit st hC bs (by omega) hU fuel a m (by omega)] at h
    exact Option.noConfusion h
  · intro h
    rcases h with h | h
    · obtain ⟨res, hres⟩ :=
        fillAux_term st hC bs hs1 h st.SRAMBytes a m (by omega)
      exact ⟨st.SRAMBytes + 1, res, hres⟩
    · exact ⟨1, (m, st), fillAux_exit st bs 0 a m (by omega)⟩

theorem c9_fill_termination_witness :
    supported st8192.SRAMBytes ∧ 1 ≤ [1].length ∧ [1].length < U32 ∧
    ((∃ fuel res, fillAux st8192 [1] fuel 0 m0 = some res) ↔
      ([1].length ≤ st8192.SRAMBytes ∨ sub32 st8192.SRAMBytes [1].length ≤ 0)) :=
  ⟨by decide, by decide, by decide,
   c9_fill_termination st8192 (by decide) [1] (by decide) (by decide) 0 m0⟩

/-- C9 counterexample: the claim says `fillMemory` terminates only if
`sizeof(v) ≤ C`.  But with the 8193-byte value `ceBs` on the 8 KiB chip
(`sizeof > C`) and starting address `2^32 - 1`, the underflowed bound is
`(8192 - 8193) mod 2^32 = 2^32 - 1`, the loop condition is false at once
and the loop exits immediately: it terminates although `sizeof(v) > C`. -/
theorem c9_counterexample :
    fillAux st8192 ceBs 1 4294967295 m0 = some (m0, st8192) ∧
    st8192.SRAMBytes < ceBs.length := by
  have hn : ceBs.length = 8193 := by
    simp only [ceBs, List.length_append, List.length_replicate, List.length_cons,
      List.length_nil]
  constructor
  · apply fillAux_exit
    rw [hn]
    have hs : sub32 st8192.SRAMBytes 8193 = 4294967295 := by decide
    rw [hs]
    omega
  · rw [hn]
    decide

/-- C4 (amended): running `fillMemory(0, v)` with a multi-byte pattern on
a detected (supported) capacity `C` paints every byte at offset
`i ∈ [0, C - remainder)` with pattern byte `i mod sizeof(v)`, where
`remainder = C mod sizeof(v)` when that is nonzero and `sizeof(v)`
otherwise: when the pattern size divides `C` exactly, the loop exits
before writing the final block, so the last `sizeof(v)` bytes (not zero
bytes) are left unfilled. -/
theorem c4_fill_pattern (st : Driver) (hC : supported st.SRAMBytes)
    (bs : List Nat) (hs2 : 2 ≤ bs.length) (hsC : bs.length ≤ st.SRAMBytes)
    (m : Mem) :
    ∃ fuel mm, fillAux st bs fuel 0 m = some (mm, st) ∧
      ∀ i, i < st.SRAMBytes - fillRemainder st.SRAMBytes bs.length →
        mm i = bs.getD (i % bs.length) 0 := by
  have hs0 : 0 < bs.length := by omega
  have hqr : (st.SRAMBytes / bs.length) * bs.length + st.SRAMBytes % bs.length
      = st.SRAMBytes := by
    rw [Nat.mul_comm]
    exact Nat.div_add_mod _ _
  have hrlt : st.SRAMBytes % bs.length < bs.length := Nat.mod_lt _ hs0
  have hq1 : 1 ≤ st.SRAMBytes / bs.length := (Nat.one_le_div_iff hs0).mpr hsC
  have hpoison : (st.SRAMBytes / bs.length - 1) * bs.length + bs.length
      = (st.SRAMBytes / bs.length) * bs.length := by
    have h1 : (st.SRAMBytes / bs.length - 1) + 1 = st.SRAMBytes / bs.length := by
      omega
    calc (st.SRAMBytes / bs.length - 1) * bs.length + bs.length
        = ((st.SRAMBytes / bs.length - 1) + 1) * bs.length :=
          (Nat.succ_mul _ _).symm
      _ = (st.SRAMBytes / bs.length) * bs.length := by rw [h1]
  by_cases hr : st.SRAMBytes % bs.length = 0
  · -- the pattern divides the capacity: the loop runs q - 1 times
    have hfr : fillRemainder st.SRAMBytes bs.length = bs.length := by
      rw [fillRemainder, if_pos hr]
    obtain ⟨mm, heq, hchar⟩ := fillAux_run st hC bs (by omega) hsC
      (st.SRAMBytes / bs.length - 1) 0 m
      (by omega)
      (by
        intro j hj
        have h2 : (j + 1) * bs.length ≤ (st.SRAMBytes / bs.length - 1) * bs.length :=
          mul_le_mul_right' (by omega) bs.length
        have h3 : (j + 1) * bs.length = j * bs.length + bs.length :=
          Nat.succ_mul _ _
        omega)
    refine ⟨st.SRAMBytes / bs.length - 1 + 1, mm, heq, fun i hi => ?_⟩
    rw [hfr] at hi
    have hc := hchar i
    rw [if_pos (by omega)] at hc
    simpa using hc
  · -- a proper remainder: the loop runs q times
    have hfr : fillRemainder st.SRAMBytes bs.length = st.SRAMBytes % bs.length := by
      rw [fillRemainder, if_neg hr]
    obtain ⟨mm, heq, hchar⟩ := fillAux_run st hC bs (by omega) hsC
      (st.SRAMBytes / bs.length) 0 m
      (by omega)
      (by
        intro j hj
        have h2 : (j + 1) * bs.length ≤ (st.SRAMBytes / bs.length) * bs.length :=
          mul_le_mul_right' (by omega) bs.length
        have h3 : (j + 1) * bs.length = j * bs.length + bs.length :=
          Nat.succ_mul _ _
        omega)
    refine ⟨st.SRAMBytes / bs.length + 1, mm, heq, fun i hi => ?_⟩
    rw [hfr] at hi
    have hc := hchar i
    rw [if_pos (by omega)] at hc
    simpa using hc

theorem c4_fill_pattern_witness :
    supported st8192.SRAMBytes ∧ 2 ≤ [1, 2, 3].length ∧
    [1, 2, 3].length ≤ st8192.SRAMBytes ∧
    (∃ fuel mm, fillAux st8192 [1, 2, 3] fuel 0 m0 = some (mm, st8192) ∧
      ∀ i, i < st8192.SRAMBytes - fillRemainder st8192.SRAMBytes [1, 2, 3].length →
        mm i = [1, 2, 3].getD (i % [1, 2, 3].length) 0) :=
  ⟨by decide, by decide, by decide,
   c4_fill_pattern st8192 (by decide) [1, 2, 3] (by decide) (by decide) m0⟩

/-- C4 counterexample: the claim puts the filled region at
`[0, C - (C mod sizeof))`.  With the two-byte pattern `[1, 2]` on the
8 KiB chip, `C mod sizeof = 0`, so the claim asserts every cell below
8192 is filled — but after `fillMemory(0, [1,2])` (which exits once the
address reaches 8190) cell 8190 still holds the original 0 instead of
pattern byte `[1, 2].getD (8190 mod 2) = 1`. -/
theorem c4_counterexample :
    (fillAux st8192 [1, 2] 4096 0 m0).map (fun res => res.1 8190) = some 0 ∧
    (0 : Nat) ≠ [1, 2].getD (8190 % [1, 2].length) 0 ∧
    st8192.SRAMBytes % [1, 2].length = 0 ∧
    (8190 : Nat) < st8192.SRAMBytes - st8192.SRAMBytes % [1, 2].length := by
  refine ⟨?_, by decide, by decide, by decide⟩
  obtain ⟨mm, heq, hchar⟩ := fillAux_run st8192 (by decide) [1, 2]
    (by decide) (by decide) 4095 0 m0
    (by decide)
    (by intro j hj; simpa using (by omega : j * 2 < 8190))
  rw [show (4096 : Nat) = 4095 + 1 from rfl, heq, Option.map_some']
  have hc := hchar 8190
  rw [if_neg (by norm_num)] at hc
  rw [show ((mm, st8192).1 8190 : Nat) = mm 8190 from rfl, hc]
  rfl

theorem c10_state_unchanged_witness :
    put st8192 0 [] m0 = some r0 ∧ r0.drv = st8192 ∧
    get st8192 0 0 m0 = some g0 ∧ g0.drv = st8192 ∧
    fillAux st8192 [] 1 9000 m0 = some (m0, st8192) ∧ (m0, st8192).2 = st8192 :=
  ⟨rfl, (c10_state_unchanged st8192 0 0 1 [] m0).1 r0 rfl,
   rfl, (c10_state_unchanged st8192 0 0 1 [] m0).2.1 g0 rfl,
   rfl, (c10_state_unchanged st8192 9000 0 1 [] m0).2.2 (m0, st8192) rfl⟩

end MicrochipSRAM
